import Mathlib

/-!
Verification of the edge-linking (hysteresis) and Hough-transform core of the
CV1-2020 exercise repository.

The source notebooks give the skeleton of the algorithms (threshold
computation, visited-mask initialisation, border pre-marking, the neighbor
offset tables, the seed mask) while the loop bodies are exercise stubs; parts
that are stubbed in the source are modelled from the specification, as noted
in the doc comments of the corresponding definitions.

Pixel positions are pairs (y, x) of integers, matching numpy index order.
Image values (gradient magnitudes, thresholds) are rationals, standing for the
float values of the source.  Vote counts are integers, standing for np.int.
-/

namespace CV1

/-- A pixel position (y, x), in numpy index order. -/
abbrev Pos : Type := ℤ × ℤ

/-- Neighbor x-offsets of follow_edge, from the source:
offsets_x = [-1, -1, 0, 1, 1, 1, 0, -1]. -/
def offsets_x : List ℤ := [-1, -1, 0, 1, 1, 1, 0, -1]

/-- Neighbor y-offsets of follow_edge, from the source:
offsets_y = [0, -1, -1, -1, 0, 1, 1, 1]. -/
def offsets_y : List ℤ := [0, -1, -1, -1, 0, 1, 1, 1]

/-- The 8-connected neighbors of a pixel, in the iteration order of the
source (zip of offsets_x and offsets_y, position indexed as (y, x)). -/
def neighbors (p : Pos) : List Pos :=
  (offsets_x.zip offsets_y).map (fun o => (p.1 + o.2, p.2 + o.1))

/-- The set of valid pixel positions of an h×w image. -/
def cellsOf (h w : ℕ) : Finset Pos :=
  Finset.Icc 0 ((h : ℤ) - 1) ×ˢ Finset.Icc 0 ((w : ℤ) - 1)

/-- Membership in the 1-pixel border ring, from the source lines
visited[:, 0] = 1; visited[:, -1] = 1; visited[0, :] = 1; visited[-1, :] = 1. -/
def isBorder (h w : ℕ) (p : Pos) : Prop :=
  p.1 = 0 ∨ p.1 = (h : ℤ) - 1 ∨ p.2 = 0 ∨ p.2 = (w : ℤ) - 1

instance (h w : ℕ) (p : Pos) : Decidable (isBorder h w p) := by
  unfold isBorder; infer_instance

/-- The scan order of the main driver loop of my_canny, from the source:
for x in range(image.shape[1]): for y in range(image.shape[0]). -/
def scanList (h w : ℕ) : List Pos :=
  ((List.range w).map (fun x => (List.range h).map
    (fun y => (((y : ℕ) : ℤ), ((x : ℕ) : ℤ))))).flatten

/-- Row-major enumeration of all pixel positions (numpy iteration order). -/
def rowMajor (h w : ℕ) : List Pos :=
  ((List.range h).map (fun y => (List.range w).map
    (fun x => (((y : ℕ) : ℤ), ((x : ℕ) : ℤ))))).flatten

/-- Maximum of a magnitude field over the grid, from the source
max_val = np.max(grad_mag) (the maximum over all grid cells; 0 on an empty
grid, where np.max is not defined). -/
def maxMag (h w : ℕ) (mag : Pos → ℚ) : ℚ :=
  match scanList h w with
  | [] => 0
  | c :: cs => cs.foldl (fun a q => max a (mag q)) (mag c)

/-- The mutable state of the edge-following traversal: the visited mask, the
set of pixels written 255 into image_out, and (as a ghost field used only to
state the visit-once property) the list of visit events in order. -/
structure TraceState where
  visited : Finset Pos
  out : Finset Pos
  visits : List Pos
  deriving DecidableEq

/-- Marking a pixel, from the source lines visited[y, x] = True;
image_out[y, x] = 255 (the visits field records the visit event). -/
def markPixel (q : Pos) (st : TraceState) : TraceState :=
  { visited := insert q st.visited
    out := insert q st.out
    visits := st.visits ++ [q] }

/-- Modelled from the spec: the edge-following traversal of my_canny.  The
body of the loop of the recursive follow_edge is an exercise stub in the
source; the spec describes it as a depth-first 8-connected flood that marks a
pixel on first visit and continues into any unvisited 8-neighbor, and states
that the recursion may equivalently be run with an explicit stack with
unchanged visit-once, 8-connected, threshold-gated semantics.  The worklist
holds the pending pixels in depth-first order; a popped pixel is marked when
it is an unvisited grid cell (the spec notes that the pre-visited border ring
keeps the traversal inside the grid, so the bounds test never fails on a
reachable state).  Fuel makes the recursion structural; my_canny supplies
enough fuel for the traversal to complete, which is proved below. -/
def follow_edge (cells : Finset Pos) : ℕ → TraceState → List Pos → Option TraceState
  | _, st, [] => some st
  | 0, _, _ :: _ => none
  | fuel + 1, st, q :: rest =>
    if q ∈ cells ∧ q ∉ st.visited then
      follow_edge cells fuel (markPixel q st) (neighbors q ++ rest)
    else
      follow_edge cells fuel st rest

/-- The predicate of the initial visited mask, from the source:
visited = grad_mag < theta_low_abs, then the border ring is set. -/
def initPruned (h w : ℕ) (mag : Pos → ℚ) (lowAbs : ℚ) (p : Pos) : Prop :=
  mag p < lowAbs ∨ isBorder h w p

instance (h w : ℕ) (mag : Pos → ℚ) (lowAbs : ℚ) (p : Pos) :
    Decidable (initPruned h w mag lowAbs p) := by
  unfold initPruned; infer_instance

/-- The initial visited mask as a set of grid cells. -/
def initVisited (h w : ℕ) (mag : Pos → ℚ) (lowAbs : ℚ) : Finset Pos :=
  (cellsOf h w).filter (initPruned h w mag lowAbs)

/-- Modelled from the spec: the main driver loop of my_canny.  The loop body
is an exercise stub in the source; the spec describes it as scanning all
pixels in the fixed order of the source loops and starting a new trace at
every pixel that is a seed (is_high, from the source mask
is_high = grad_mag >= theta_high_abs) and not yet visited. -/
def cannyDriver (cells : Finset Pos) (fuel : ℕ) (mag : Pos → ℚ) (highAbs : ℚ) :
    List Pos → TraceState → Option TraceState
  | [], st => some st
  | p :: ps, st =>
    if highAbs ≤ mag p ∧ p ∉ st.visited then
      match follow_edge cells fuel st [p] with
      | none => none
      | some st1 => cannyDriver cells fuel mag highAbs ps st1
    else
      cannyDriver cells fuel mag highAbs ps st

/-- The traversal of my_canny in terms of the absolute thresholds: the
visited mask starts as the low-pruned pixels plus the border ring, image_out
starts empty, and the driver scans for seeds. -/
def my_canny_core (h w : ℕ) (mag : Pos → ℚ) (lowAbs highAbs : ℚ) : Option TraceState :=
  cannyDriver (cellsOf h w) (9 * (h * w) + 1) mag highAbs (scanList h w)
    { visited := initVisited h w mag lowAbs, out := ∅, visits := [] }

/-- The final traversal state of my_canny on a thinned magnitude field.  The
absolute thresholds are computed as in the source: theta_low_abs =
theta_low * max_val and theta_high_abs = theta_high * max_val. -/
def my_canny_state (h w : ℕ) (mag : Pos → ℚ) (tlow thigh : ℚ) : Option TraceState :=
  my_canny_core h w mag (tlow * maxMag h w mag) (thigh * maxMag h w mag)

/-- Reading the edge map off a traversal state: image_out starts as
np.zeros_like(image) and follow_edge writes 255 at every marked pixel. -/
def edgeMapOf (ost : Option TraceState) : Pos → ℚ :=
  match ost with
  | some st => fun p => if p ∈ st.out then 255 else 0
  | none => fun _ => 0

/-- The edge map returned by my_canny.  The none case of the state (fuel
exhaustion) never occurs, as proved below. -/
def my_canny (h w : ℕ) (mag : Pos → ℚ) (tlow thigh : ℚ) : Pos → ℚ :=
  edgeMapOf (my_canny_state h w mag tlow thigh)

/-! ### Reachability predicates for the hysteresis traversal -/

/-- One tracing step: the traversal moves from a pixel to an 8-connected
neighbor that is a grid cell and was not pruned by the initial visited mask
(so its magnitude is at least theta_low_abs and it is not on the border). -/
def traceStep (h w : ℕ) (mag : Pos → ℚ) (lowAbs : ℚ) (a b : Pos) : Prop :=
  b ∈ neighbors a ∧ b ∈ cellsOf h w ∧ ¬ initPruned h w mag lowAbs b

/-- A pixel the traversal can reach: some unpruned grid seed of magnitude at
least theta_high_abs reaches it by tracing steps. -/
def Reachable (h w : ℕ) (mag : Pos → ℚ) (lowAbs highAbs : ℚ) (p : Pos) : Prop :=
  ∃ s, s ∈ cellsOf h w ∧ highAbs ≤ mag s ∧ ¬ initPruned h w mag lowAbs s ∧
    Relation.ReflTransGen (traceStep h w mag lowAbs) s p

/-- A chain step as the spec words it for the edge-map invariant: an
8-connected move onto a pixel of magnitude at least the low threshold. -/
def lowStep (mag : Pos → ℚ) (lowAbs : ℚ) (a b : Pos) : Prop :=
  b ∈ neighbors a ∧ lowAbs ≤ mag b

/-! ### Non-maximum suppression for Canny (nms_for_canny) -/

/-- Neighbor x-offsets of nms_for_canny by snapped direction, from the
source: offsets_x = [-1, -1, 0, 1, 1, 1, 0, -1, -1]. -/
def nms_offsets_x : List ℤ := [-1, -1, 0, 1, 1, 1, 0, -1, -1]

/-- Neighbor y-offsets of nms_for_canny by snapped direction, from the
source: offsets_y = [0, -1, -1, -1, 0, 1, 1, 1, 0]. -/
def nms_offsets_y : List ℤ := [0, -1, -1, -1, 0, 1, 1, 1, 0]

/-- The (y, x) offset selected by a snapped direction index into the offset
tables of nms_for_canny. -/
def octOffset (o : Fin 9) : Pos :=
  (nms_offsets_y.getD o.val 0, nms_offsets_x.getD o.val 0)

/-- Modelled from the spec: the keep test of nms_for_canny.  The loop body is
an exercise stub in the source; the spec states that the two neighbors along
the snapped gradient direction and its opposite are compared and the center
is kept only if its magnitude is at least both (ties kept). -/
def nmsKeep (mag : Pos → ℚ) (d : Pos) (p : Pos) : Prop :=
  mag (p.1 + d.1, p.2 + d.2) ≤ mag p ∧ mag (p.1 - d.1, p.2 - d.2) ≤ mag p

instance (mag : Pos → ℚ) (d p : Pos) : Decidable (nmsKeep mag d p) := by
  unfold nmsKeep; infer_instance

/-- The interior scan order of nms_for_canny (and of nms2d), from the source:
for y in range(1, height-1): for x in range(1, width-1). -/
def interiorScan (h w : ℕ) : List Pos :=
  ((List.range (h - 2)).map (fun y => (List.range (w - 2)).map
    (fun x => (((y + 1 : ℕ) : ℤ), ((x + 1 : ℕ) : ℤ))))).flatten

/-- Modelled from the spec: nms_for_canny.  The source fixes the offset
tables, the zero-initialised result and the interior loop bounds; the
stubbed body is the keep test of nmsKeep.  The gradient direction field is
taken already snapped to the source's nine table indices (the float angle
arithmetic that produces the index is outside the embedding); index 8 and
index 0 select the same offset. -/
def nms_for_canny (h w : ℕ) (mag : Pos → ℚ) (dir : Pos → Fin 9) : Pos → ℚ :=
  (interiorScan h w).foldl
    (fun g p =>
      Function.update g p (if nmsKeep mag (octOffset (dir p)) p then mag p else 0))
    (fun _ => 0)

/-! ### Hough transform accumulator -/

/-- The list of edge pixels of an edge image, in numpy row-major scan order:
the pixels with a nonzero value. -/
def edgePixels (h w : ℕ) (edge : Pos → ℚ) : List Pos :=
  (rowMajor h w).filter (fun p => edge p ≠ 0)

/-- Modelled from the spec: the full-voting hough_transform.  The source
fixes the zero-initialised integer votes array of shape
(n_bins_rho, n_bins_theta) and the linspace bin grids; the stubbed voting
loop is described by the spec as: for each edge pixel, for every theta bin,
locate the nearest rho bin and increment that cell by 1.  The map from an
edge pixel and a theta bin to the nearest rho bin (rho = x cos theta +
y sin theta followed by the nearest-bin lookup, float arithmetic outside the
embedding) is abstracted as the argument rhoIdx; the accumulator invariants
hold for every such map. -/
def hough_transform (h w nR nT : ℕ) (edge : Pos → ℚ)
    (rhoIdx : Pos → Fin nT → Fin nR) : Fin nR × Fin nT → ℤ :=
  (edgePixels h w edge).foldl
    (fun acc p =>
      (List.finRange nT).foldl
        (fun a t => Function.update a (rhoIdx p t, t) (a (rhoIdx p t, t) + 1))
        acc)
    (fun _ => 0)

/-! ### Hough peak extraction -/

/-- Modelled from the spec: nms2d.  The source fixes the zero-initialised
output array; the stubbed loop is described as keeping only cells whose value
is strictly greater than all 8 direct neighbors, scanning the cells that
have all 8 neighbors (the interior, matching the loop bounds of the
companion nms_for_canny). -/
def nms2d (h w : ℕ) (g : Pos → ℤ) : Pos → ℤ :=
  (interiorScan h w).foldl
    (fun out p =>
      Function.update out p (if ∀ q ∈ neighbors p, g q < g p then g p else 0))
    (fun _ => 0)

/-- Modelled from the spec: find_hough_peaks finds the extrema of the votes
array with nms2d and returns, in row-major order, the indices of all cells
whose value after suppression is greater than the threshold. -/
def find_hough_peaks (h w : ℕ) (g : Pos → ℤ) (threshold : ℤ) : List Pos :=
  (rowMajor h w).filter (fun p => threshold < nms2d h w g p)

/-! ### Basic facts about the traversal -/

theorem follow_edge_nil (cells : Finset Pos) (n : ℕ) (st : TraceState) :
    follow_edge cells n st [] = some st := by
  cases n <;> rfl

theorem follow_edge_zero_cons (cells : Finset Pos) (st : TraceState) (q : Pos)
    (rest : List Pos) : follow_edge cells 0 st (q :: rest) = none := rfl

theorem follow_edge_cons (cells : Finset Pos) (n : ℕ) (st : TraceState) (q : Pos)
    (rest : List Pos) :
    follow_edge cells (n + 1) st (q :: rest) =
      if q ∈ cells ∧ q ∉ st.visited then
        follow_edge cells n (markPixel q st) (neighbors q ++ rest)
      else
        follow_edge cells n st rest := rfl

theorem neighbors_length (p : Pos) : (neighbors p).length = 8 := by
  simp [neighbors, offsets_x, offsets_y]

/-- Any property preserved by marking an unvisited grid pixel is preserved by
the whole traversal. -/
theorem follow_edge_invariant (cells : Finset Pos) (P : TraceState → Prop)
    (hP : ∀ q st, q ∈ cells → q ∉ st.visited → P st → P (markPixel q st)) :
    ∀ (n : ℕ) (st : TraceState) (stack : List Pos) (st1 : TraceState),
      follow_edge cells n st stack = some st1 → P st → P st1 := by
  intro n
  induction n with
  | zero =>
    intro st stack st1 h hps
    cases stack with
    | nil =>
      rw [follow_edge_nil] at h
      cases h
      exact hps
    | cons q rest =>
      rw [follow_edge_zero_cons] at h
      cases h
  | succ n ih =>
    intro st stack st1 h hps
    cases stack with
    | nil =>
      rw [follow_edge_nil] at h
      cases h
      exact hps
    | cons q rest =>
      rw [follow_edge_cons] at h
      by_cases hc : q ∈ cells ∧ q ∉ st.visited
      · rw [if_pos hc] at h
        exact ih _ _ _ h (hP q st hc.1 hc.2 hps)
      · rw [if_neg hc] at h
        exact ih _ _ _ h hps

theorem follow_edge_visited_mono (cells : Finset Pos) (n : ℕ) (st : TraceState)
    (stack : List Pos) (st1 : TraceState)
    (h : follow_edge cells n st stack = some st1) : st.visited ⊆ st1.visited := by
  refine follow_edge_invariant cells (fun s => st.visited ⊆ s.visited) ?_ n st stack st1 h
    (le_refl _)
  intro q s _ _ hs
  exact hs.trans (Finset.subset_insert q s.visited)

theorem follow_edge_out_mono (cells : Finset Pos) (n : ℕ) (st : TraceState)
    (stack : List Pos) (st1 : TraceState)
    (h : follow_edge cells n st stack = some st1) : st.out ⊆ st1.out := by
  refine follow_edge_invariant cells (fun s => st.out ⊆ s.out) ?_ n st stack st1 h
    (le_refl _)
  intro q s _ _ hs
  exact hs.trans (Finset.subset_insert q s.out)

/-- Every grid cell on the worklist is visited once the traversal finishes. -/
theorem follow_edge_stack_visited (cells : Finset Pos) :
    ∀ (n : ℕ) (st : TraceState) (stack : List Pos) (st1 : TraceState),
      follow_edge cells n st stack = some st1 →
      ∀ q ∈ stack, q ∈ cells → q ∈ st1.visited := by
  intro n
  induction n with
  | zero =>
    intro st stack st1 h q hq _
    cases stack with
    | nil => cases hq
    | cons a rest =>
      rw [follow_edge_zero_cons] at h
      cases h
  | succ n ih =>
    intro st stack st1 h q hq hqc
    cases stack with
    | nil => cases hq
    | cons a rest =>
      rw [follow_edge_cons] at h
      by_cases hc : a ∈ cells ∧ a ∉ st.visited
      · rw [if_pos hc] at h
        rcases List.mem_cons.mp hq with rfl | hq
        · have : q ∈ (markPixel q st).visited := Finset.mem_insert_self _ _
          exact follow_edge_visited_mono cells n _ _ _ h this
        · exact ih _ _ _ h q (List.mem_append.mpr (Or.inr hq)) hqc
      · rw [if_neg hc] at h
        rcases List.mem_cons.mp hq with rfl | hq
        · have hv : q ∈ st.visited := by
            by_contra hn
            exact hc ⟨hqc, hn⟩
          exact follow_edge_visited_mono cells n _ _ _ h hv
        · exact ih _ _ _ h q hq hqc

/-- Soundness of the traversal: if a predicate holds for every unpruned grid
cell on the worklist and is closed under steps onto unpruned grid neighbors,
then it holds for everything the traversal marks. -/
theorem follow_edge_sound (cells I : Finset Pos) (Good : Pos → Prop)
    (hGc : ∀ a b, Good a → b ∈ neighbors a → b ∈ cells → b ∉ I → Good b) :
    ∀ (n : ℕ) (st : TraceState) (stack : List Pos) (st1 : TraceState),
      follow_edge cells n st stack = some st1 →
      I ⊆ st.visited →
      (∀ q ∈ stack, q ∈ cells → q ∉ I → Good q) →
      (∀ p ∈ st.out, Good p) →
      ∀ p ∈ st1.out, Good p := by
  intro n
  induction n with
  | zero =>
    intro st stack st1 h _ _ hout
    cases stack with
    | nil =>
      rw [follow_edge_nil] at h
      cases h
      exact hout
    | cons a rest =>
      rw [follow_edge_zero_cons] at h
      cases h
  | succ n ih =>
    intro st stack st1 h hI hstack hout
    cases stack with
    | nil =>
      rw [follow_edge_nil] at h
      cases h
      exact hout
    | cons a rest =>
      rw [follow_edge_cons] at h
      by_cases hc : a ∈ cells ∧ a ∉ st.visited
      · rw [if_pos hc] at h
        have haI : a ∉ I := fun hmem => hc.2 (hI hmem)
        have hga : Good a := hstack a (List.mem_cons_self a rest) hc.1 haI
        refine ih _ _ _ h ?_ ?_ ?_
        · exact hI.trans (Finset.subset_insert _ _)
        · intro q hq hqc hqI
          rcases List.mem_append.mp hq with hq | hq
          · exact hGc a q hga hq hqc hqI
          · exact hstack q (List.mem_cons_of_mem _ hq) hqc hqI
        · intro p hp
          rcases Finset.mem_insert.mp hp with rfl | hp
          · exact hga
          · exact hout p hp
      · rw [if_neg hc] at h
        exact ih _ _ _ h hI (fun q hq => hstack q (List.mem_cons_of_mem _ hq)) hout

/-- Closedness of the traversal: once it finishes, every grid neighbor of
every marked pixel has been visited (assuming the same held initially up to
membership in the worklist). -/
theorem follow_edge_closed (cells : Finset Pos) :
    ∀ (n : ℕ) (st : TraceState) (stack : List Pos) (st1 : TraceState),
      follow_edge cells n st stack = some st1 →
      (∀ p ∈ st.out, ∀ r ∈ neighbors p, r ∈ cells → r ∈ st.visited ∨ r ∈ stack) →
      ∀ p ∈ st1.out, ∀ r ∈ neighbors p, r ∈ cells → r ∈ st1.visited := by
  intro n
  induction n with
  | zero =>
    intro st stack st1 h hcl
    cases stack with
    | nil =>
      rw [follow_edge_nil] at h
      cases h
      intro p hp r hr hrc
      rcases hcl p hp r hr hrc with hv | hv
      · exact hv
      · cases hv
    | cons a rest =>
      rw [follow_edge_zero_cons] at h
      cases h
  | succ n ih =>
    intro st stack st1 h hcl
    cases stack with
    | nil =>
      rw [follow_edge_nil] at h
      cases h
      intro p hp r hr hrc
      rcases hcl p hp r hr hrc with hv | hv
      · exact hv
      · cases hv
    | cons a rest =>
      rw [follow_edge_cons] at h
      by_cases hc : a ∈ cells ∧ a ∉ st.visited
      · rw [if_pos hc] at h
        refine ih _ _ _ h ?_
        intro p hp r hr hrc
        rcases Finset.mem_insert.mp hp with rfl | hp
        · exact Or.inr (List.mem_append.mpr (Or.inl hr))
        · rcases hcl p hp r hr hrc with hv | hv
          · exact Or.inl (Finset.mem_insert_of_mem hv)
          · rcases List.mem_cons.mp hv with rfl | hv
            · exact Or.inl (Finset.mem_insert_self _ _)
            · exact Or.inr (List.mem_append.mpr (Or.inr hv))
      · rw [if_neg hc] at h
        refine ih _ _ _ h ?_
        intro p hp r hr hrc
        rcases hcl p hp r hr hrc with hv | hv
        · exact Or.inl hv
        · rcases List.mem_cons.mp hv with rfl | hv
          · left
            by_contra hn
            exact hc ⟨hrc, hn⟩
          · exact Or.inr hv

/-- Fuel sufficiency: the worklist length plus nine times the number of
still-unvisited grid cells bounds the fuel the traversal needs. -/
theorem follow_edge_fuel (cells : Finset Pos) :
    ∀ (n : ℕ) (st : TraceState) (stack : List Pos),
      stack.length + 9 * (cells \ st.visited).card ≤ n →
      ∃ st1, follow_edge cells n st stack = some st1 := by
  intro n
  induction n with
  | zero =>
    intro st stack hn
    cases stack with
    | nil => exact ⟨st, follow_edge_nil _ _ _⟩
    | cons a rest => simp at hn
  | succ n ih =>
    intro st stack hn
    cases stack with
    | nil => exact ⟨st, follow_edge_nil _ _ _⟩
    | cons a rest =>
      rw [follow_edge_cons]
      by_cases hc : a ∈ cells ∧ a ∉ st.visited
      · rw [if_pos hc]
        have hmem : a ∈ cells \ st.visited := Finset.mem_sdiff.mpr ⟨hc.1, hc.2⟩
        have hpos : 0 < (cells \ st.visited).card := Finset.card_pos.mpr ⟨a, hmem⟩
        have hset : cells \ (markPixel a st).visited = (cells \ st.visited).erase a := by
          ext x
          simp only [markPixel, Finset.mem_sdiff, Finset.mem_insert, Finset.mem_erase]
          tauto
        refine ih (markPixel a st) (neighbors a ++ rest) ?_
        rw [List.length_append, neighbors_length, hset,
          Finset.card_erase_of_mem hmem]
        simp only [List.length_cons] at hn
        omega
      · rw [if_neg hc]
        refine ih st rest ?_
        simp only [List.length_cons] at hn
        omega

/-- The visit-event list: events are pairwise distinct, record visited grid
cells, and marking order never revisits. -/
theorem follow_edge_visits (cells : Finset Pos) (n : ℕ) (st : TraceState)
    (stack : List Pos) (st1 : TraceState)
    (h : follow_edge cells n st stack = some st1)
    (hnd : st.visits.Nodup) (hvv : ∀ v ∈ st.visits, v ∈ st.visited)
    (hvc : ∀ v ∈ st.visits, v ∈ cells) :
    st1.visits.Nodup ∧ (∀ v ∈ st1.visits, v ∈ st1.visited) ∧
      (∀ v ∈ st1.visits, v ∈ cells) := by
  refine follow_edge_invariant cells
    (fun s => s.visits.Nodup ∧ (∀ v ∈ s.visits, v ∈ s.visited) ∧
      (∀ v ∈ s.visits, v ∈ cells)) ?_ n st stack st1 h ⟨hnd, hvv, hvc⟩
  intro q s hqc hqv ⟨h1, h2, h3⟩
  refine ⟨?_, ?_, ?_⟩
  · have hqn : q ∉ s.visits := fun hmem => hqv (h2 q hmem)
    simp [markPixel, List.nodup_append, h1, hqn]
  · intro v hv
    rcases List.mem_append.mp hv with hv | hv
    · exact Finset.mem_insert_of_mem (h2 v hv)
    · simp only [List.mem_singleton] at hv
      subst hv
      exact Finset.mem_insert_self _ _
  · intro v hv
    rcases List.mem_append.mp hv with hv | hv
    · exact h3 v hv
    · simp only [List.mem_singleton] at hv
      subst hv
      exact hqc

/-! ### Facts about the driver loop -/

theorem cannyDriver_nil (cells : Finset Pos) (fuel : ℕ) (mag : Pos → ℚ) (hi : ℚ)
    (st : TraceState) : cannyDriver cells fuel mag hi [] st = some st := rfl

theorem cannyDriver_cons (cells : Finset Pos) (fuel : ℕ) (mag : Pos → ℚ) (hi : ℚ)
    (p : Pos) (ps : List Pos) (st : TraceState) :
    cannyDriver cells fuel mag hi (p :: ps) st =
      if hi ≤ mag p ∧ p ∉ st.visited then
        match follow_edge cells fuel st [p] with
        | none => none
        | some st1 => cannyDriver cells fuel mag hi ps st1
      else
        cannyDriver cells fuel mag hi ps st := rfl

/-- Any property preserved by marking an unvisited grid pixel is preserved by
the whole driver loop. -/
theorem cannyDriver_invariant (cells : Finset Pos) (fuel : ℕ) (mag : Pos → ℚ)
    (hi : ℚ) (P : TraceState → Prop)
    (hP : ∀ q st, q ∈ cells → q ∉ st.visited → P st → P (markPixel q st)) :
    ∀ (ps : List Pos) (st st1 : TraceState),
      cannyDriver cells fuel mag hi ps st = some st1 → P st → P st1 := by
  intro ps
  induction ps with
  | nil =>
    intro st st1 h hps
    rw [cannyDriver_nil] at h
    cases h
    exact hps
  | cons p ps ih =>
    intro st st1 h hps
    rw [cannyDriver_cons] at h
    by_cases hc : hi ≤ mag p ∧ p ∉ st.visited
    · rw [if_pos hc] at h
      cases heq : follow_edge cells fuel st [p] with
      | none =>
        rw [heq] at h
        cases h
      | some st2 =>
        rw [heq] at h
        exact ih _ _ h (follow_edge_invariant cells P hP fuel st [p] st2 heq hps)
    · rw [if_neg hc] at h
      exact ih _ _ h hps

theorem cannyDriver_visited_mono (cells : Finset Pos) (fuel : ℕ) (mag : Pos → ℚ)
    (hi : ℚ) (ps : List Pos) (st st1 : TraceState)
    (h : cannyDriver cells fuel mag hi ps st = some st1) :
    st.visited ⊆ st1.visited := by
  refine cannyDriver_invariant cells fuel mag hi (fun s => st.visited ⊆ s.visited) ?_
    ps st st1 h (le_refl _)
  intro q s _ _ hs
  exact hs.trans (Finset.subset_insert q s.visited)

/-- Every scanned seed pixel ends up visited. -/
theorem cannyDriver_marks (cells : Finset Pos) (fuel : ℕ) (mag : Pos → ℚ) (hi : ℚ) :
    ∀ (ps : List Pos) (st st1 : TraceState),
      cannyDriver cells fuel mag hi ps st = some st1 →
      (∀ p ∈ ps, p ∈ cells) →
      ∀ p ∈ ps, hi ≤ mag p → p ∈ st1.visited := by
  intro ps
  induction ps with
  | nil =>
    intro st st1 _ _ p hp
    cases hp
  | cons a ps ih =>
    intro st st1 h hcells p hp hhigh
    rw [cannyDriver_cons] at h
    by_cases hc : hi ≤ mag a ∧ a ∉ st.visited
    · rw [if_pos hc] at h
      cases heq : follow_edge cells fuel st [a] with
      | none =>
        rw [heq] at h
        cases h
      | some st2 =>
        rw [heq] at h
        rcases List.mem_cons.mp hp with rfl | hp
        · have hv : p ∈ st2.visited :=
            follow_edge_stack_visited cells fuel st [p] st2 heq p
              (List.mem_singleton.mpr rfl) (hcells p (List.mem_cons_self _ _))
          exact cannyDriver_visited_mono cells fuel mag hi ps st2 st1 h hv
        · exact ih st2 st1 h (fun r hr => hcells r (List.mem_cons_of_mem _ hr)) p hp hhigh
    · rw [if_neg hc] at h
      rcases List.mem_cons.mp hp with rfl | hp
      · have hv : p ∈ st.visited := by
          by_contra hn
          exact hc ⟨hhigh, hn⟩
        exact cannyDriver_visited_mono cells fuel mag hi ps st st1 h hv
      · exact ih st st1 h (fun r hr => hcells r (List.mem_cons_of_mem _ hr)) p hp hhigh

/-- With the fuel budget of my_canny the driver never runs out of fuel. -/
theorem cannyDriver_total (cells : Finset Pos) (mag : Pos → ℚ) (hi : ℚ) :
    ∀ (ps : List Pos) (st : TraceState),
      ∃ st1, cannyDriver cells (9 * cells.card + 1) mag hi ps st = some st1 := by
  intro ps
  induction ps with
  | nil => exact fun st => ⟨st, rfl⟩
  | cons a ps ih =>
    intro st
    rw [cannyDriver_cons]
    by_cases hc : hi ≤ mag a ∧ a ∉ st.visited
    · rw [if_pos hc]
      have hfuel : [a].length + 9 * (cells \ st.visited).card ≤ 9 * cells.card + 1 := by
        have hle : (cells \ st.visited).card ≤ cells.card :=
          Finset.card_le_card (Finset.sdiff_subset)
        simp only [List.length_singleton]
        omega
      obtain ⟨st2, heq⟩ := follow_edge_fuel cells (9 * cells.card + 1) st [a] hfuel
      rw [heq]
      exact ih st2
    · rw [if_neg hc]
      exact ih st

/-- Soundness of the driver: everything marked satisfies any predicate that
holds at seeds and is closed under traversal steps. -/
theorem cannyDriver_sound (cells I : Finset Pos) (fuel : ℕ) (mag : Pos → ℚ)
    (hi : ℚ) (Good : Pos → Prop)
    (hGc : ∀ a b, Good a → b ∈ neighbors a → b ∈ cells → b ∉ I → Good b)
    (hseed : ∀ p, p ∈ cells → hi ≤ mag p → p ∉ I → Good p) :
    ∀ (ps : List Pos) (st st1 : TraceState),
      cannyDriver cells fuel mag hi ps st = some st1 →
      I ⊆ st.visited →
      (∀ p ∈ ps, p ∈ cells) →
      (∀ p ∈ st.out, Good p) →
      ∀ p ∈ st1.out, Good p := by
  intro ps
  induction ps with
  | nil =>
    intro st st1 h _ _ hout
    rw [cannyDriver_nil] at h
    cases h
    exact hout
  | cons a ps ih =>
    intro st st1 h hI hcells hout
    rw [cannyDriver_cons] at h
    by_cases hc : hi ≤ mag a ∧ a ∉ st.visited
    · rw [if_pos hc] at h
      cases heq : follow_edge cells fuel st [a] with
      | none =>
        rw [heq] at h
        cases h
      | some st2 =>
        rw [heq] at h
        have hstack : ∀ q ∈ [a], q ∈ cells → q ∉ I → Good q := by
          intro q hq hqc hqI
          rw [List.mem_singleton] at hq
          subst hq
          exact hseed q hqc hc.1 hqI
        have hout2 : ∀ p ∈ st2.out, Good p :=
          follow_edge_sound cells I Good hGc fuel st [a] st2 heq hI hstack hout
        refine ih st2 st1 h ?_ (fun r hr => hcells r (List.mem_cons_of_mem _ hr)) hout2
        exact hI.trans (follow_edge_visited_mono cells fuel st [a] st2 heq)
    · rw [if_neg hc] at h
      exact ih st st1 h hI (fun r hr => hcells r (List.mem_cons_of_mem _ hr)) hout

/-- Closedness of the final driver state: every grid neighbor of a marked
pixel is visited. -/
theorem cannyDriver_closed (cells : Finset Pos) (fuel : ℕ) (mag : Pos → ℚ) (hi : ℚ) :
    ∀ (ps : List Pos) (st st1 : TraceState),
      cannyDriver cells fuel mag hi ps st = some st1 →
      (∀ p ∈ st.out, ∀ r ∈ neighbors p, r ∈ cells → r ∈ st.visited) →
      ∀ p ∈ st1.out, ∀ r ∈ neighbors p, r ∈ cells → r ∈ st1.visited := by
  intro ps
  induction ps with
  | nil =>
    intro st st1 h hcl
    rw [cannyDriver_nil] at h
    cases h
    exact hcl
  | cons a ps ih =>
    intro st st1 h hcl
    rw [cannyDriver_cons] at h
    by_cases hc : hi ≤ mag a ∧ a ∉ st.visited
    · rw [if_pos hc] at h
      cases heq : follow_edge cells fuel st [a] with
      | none =>
        rw [heq] at h
        cases h
      | some st2 =>
        rw [heq] at h
        refine ih st2 st1 h ?_
        refine follow_edge_closed cells fuel st [a] st2 heq ?_
        intro p hp r hr hrc
        exact Or.inl (hcl p hp r hr hrc)
    · rw [if_neg hc] at h
      exact ih st st1 h hcl

/-- The driver preserves the visit-event invariants. -/
theorem cannyDriver_visits (cells : Finset Pos) (fuel : ℕ) (mag : Pos → ℚ) (hi : ℚ)
    (ps : List Pos) (st st1 : TraceState)
    (h : cannyDriver cells fuel mag hi ps st = some st1)
    (hnd : st.visits.Nodup) (hvv : ∀ v ∈ st.visits, v ∈ st.visited)
    (hvc : ∀ v ∈ st.visits, v ∈ cells) :
    st1.visits.Nodup ∧ (∀ v ∈ st1.visits, v ∈ st1.visited) ∧
      (∀ v ∈ st1.visits, v ∈ cells) := by
  refine cannyDriver_invariant cells fuel mag hi
    (fun s => s.visits.Nodup ∧ (∀ v ∈ s.visits, v ∈ s.visited) ∧
      (∀ v ∈ s.visits, v ∈ cells)) ?_ ps st st1 h ⟨hnd, hvv, hvc⟩
  intro q s hqc hqv ⟨h1, h2, h3⟩
  refine ⟨?_, ?_, ?_⟩
  · have hqn : q ∉ s.visits := fun hmem => hqv (h2 q hmem)
    simp [markPixel, List.nodup_append, h1, hqn]
  · intro v hv
    rcases List.mem_append.mp hv with hv | hv
    · exact Finset.mem_insert_of_mem (h2 v hv)
    · simp only [List.mem_singleton] at hv
      subst hv
      exact Finset.mem_insert_self _ _
  · intro v hv
    rcases List.mem_append.mp hv with hv | hv
    · exact h3 v hv
    · simp only [List.mem_singleton] at hv
      subst hv
      exact hqc

/-! ### Grid membership and counting facts -/

theorem mem_cellsOf (h w : ℕ) (p : Pos) :
    p ∈ cellsOf h w ↔
      0 ≤ p.1 ∧ p.1 ≤ (h : ℤ) - 1 ∧ 0 ≤ p.2 ∧ p.2 ≤ (w : ℤ) - 1 := by
  simp only [cellsOf, Finset.mem_product, Finset.mem_Icc]
  tauto

theorem mem_scanList (h w : ℕ) (p : Pos) :
    p ∈ scanList h w ↔ p ∈ cellsOf h w := by
  rw [mem_cellsOf]
  constructor
  · intro hp
    unfold scanList at hp
    obtain ⟨l, hl, hpl⟩ := List.mem_flatten.mp hp
    obtain ⟨x, hx, rfl⟩ := List.mem_map.mp hl
    obtain ⟨y, hy, hEq⟩ := List.mem_map.mp hpl
    rw [List.mem_range] at hx hy
    subst hEq
    dsimp only
    exact ⟨by omega, by omega, by omega, by omega⟩
  · rintro ⟨h1, h2, h3, h4⟩
    unfold scanList
    apply List.mem_flatten.mpr
    refine ⟨_, List.mem_map.mpr ⟨p.2.toNat, List.mem_range.mpr (by omega), rfl⟩, ?_⟩
    apply List.mem_map.mpr
    refine ⟨p.1.toNat, List.mem_range.mpr (by omega), ?_⟩
    obtain ⟨a, b⟩ := p
    dsimp only at h1 h2 h3 h4 ⊢
    rw [Prod.mk.injEq]
    constructor <;> omega

theorem mem_rowMajor (h w : ℕ) (p : Pos) :
    p ∈ rowMajor h w ↔ p ∈ cellsOf h w := by
  rw [mem_cellsOf]
  constructor
  · intro hp
    unfold rowMajor at hp
    obtain ⟨l, hl, hpl⟩ := List.mem_flatten.mp hp
    obtain ⟨y, hy, rfl⟩ := List.mem_map.mp hl
    obtain ⟨x, hx, hEq⟩ := List.mem_map.mp hpl
    rw [List.mem_range] at hx hy
    subst hEq
    dsimp only
    exact ⟨by omega, by omega, by omega, by omega⟩
  · rintro ⟨h1, h2, h3, h4⟩
    unfold rowMajor
    apply List.mem_flatten.mpr
    refine ⟨_, List.mem_map.mpr ⟨p.1.toNat, List.mem_range.mpr (by omega), rfl⟩, ?_⟩
    apply List.mem_map.mpr
    refine ⟨p.2.toNat, List.mem_range.mpr (by omega), ?_⟩
    obtain ⟨a, b⟩ := p
    dsimp only at h1 h2 h3 h4 ⊢
    rw [Prod.mk.injEq]
    constructor <;> omega

theorem mem_interiorScan (h w : ℕ) (p : Pos) :
    p ∈ interiorScan h w ↔
      1 ≤ p.1 ∧ p.1 ≤ (h : ℤ) - 2 ∧ 1 ≤ p.2 ∧ p.2 ≤ (w : ℤ) - 2 := by
  constructor
  · intro hp
    unfold interiorScan at hp
    obtain ⟨l, hl, hpl⟩ := List.mem_flatten.mp hp
    obtain ⟨y, hy, rfl⟩ := List.mem_map.mp hl
    obtain ⟨x, hx, hEq⟩ := List.mem_map.mp hpl
    rw [List.mem_range] at hx hy
    subst hEq
    dsimp only
    exact ⟨by omega, by omega, by omega, by omega⟩
  · rintro ⟨h1, h2, h3, h4⟩
    unfold interiorScan
    apply List.mem_flatten.mpr
    refine ⟨_, List.mem_map.mpr ⟨(p.1 - 1).toNat, List.mem_range.mpr (by omega), rfl⟩, ?_⟩
    apply List.mem_map.mpr
    refine ⟨(p.2 - 1).toNat, List.mem_range.mpr (by omega), ?_⟩
    obtain ⟨a, b⟩ := p
    dsimp only at h1 h2 h3 h4 ⊢
    rw [Prod.mk.injEq]
    constructor <;> omega

theorem interiorScan_iff (h w : ℕ) (p : Pos) :
    p ∈ interiorScan h w ↔ p ∈ cellsOf h w ∧ ¬ isBorder h w p := by
  rw [mem_interiorScan, mem_cellsOf]
  unfold isBorder
  constructor
  · rintro ⟨h1, h2, h3, h4⟩
    exact ⟨⟨by omega, by omega, by omega, by omega⟩, by omega⟩
  · rintro ⟨⟨h1, h2, h3, h4⟩, hb⟩
    push_neg at hb
    exact ⟨by omega, by omega, by omega, by omega⟩

theorem cellsOf_card (h w : ℕ) : (cellsOf h w).card = h * w := by
  rw [cellsOf, Finset.card_product]
  rw [Int.card_Icc, Int.card_Icc]
  simp only [sub_zero]
  rw [sub_add_cancel, sub_add_cancel]
  simp

theorem maxMag_nonneg (h w : ℕ) (mag : Pos → ℚ) (hm : ∀ q, 0 ≤ mag q) :
    0 ≤ maxMag h w mag := by
  unfold maxMag
  cases hsc : scanList h w with
  | nil => exact le_refl 0
  | cons c cs =>
    have : ∀ (l : List Pos) (a : ℚ), a ≤ l.foldl (fun x q => max x (mag q)) a := by
      intro l
      induction l with
      | nil => exact fun a => le_refl a
      | cons q l ih => exact fun a => (le_max_left a (mag q)).trans (ih _)
    exact (hm c).trans (this cs (mag c))

/-! ### Characterisation of the my_canny output -/

theorem my_canny_core_total (h w : ℕ) (mag : Pos → ℚ) (lo hi : ℚ) :
    ∃ st, my_canny_core h w mag lo hi = some st := by
  unfold my_canny_core
  have := cannyDriver_total (cellsOf h w) mag hi (scanList h w)
    { visited := initVisited h w mag lo, out := ∅, visits := [] }
  rwa [cellsOf_card] at this

theorem my_canny_core_visited (h w : ℕ) (mag : Pos → ℚ) (lo hi : ℚ)
    (st : TraceState) (hst : my_canny_core h w mag lo hi = some st) :
    st.visited = initVisited h w mag lo ∪ st.out := by
  refine cannyDriver_invariant (cellsOf h w) (9 * (h * w) + 1) mag hi
    (fun s => s.visited = initVisited h w mag lo ∪ s.out) ?_ (scanList h w) _ st hst ?_
  · intro q s _ _ hs
    simp only [markPixel, hs, Finset.union_insert]
  · simp

/-- Every pixel the traversal marks is an unpruned grid cell: in particular
it is off the border and its magnitude is at least theta_low_abs. -/
theorem my_canny_core_out_unpruned (h w : ℕ) (mag : Pos → ℚ) (lo hi : ℚ)
    (st : TraceState) (hst : my_canny_core h w mag lo hi = some st) :
    ∀ p ∈ st.out, p ∈ cellsOf h w ∧ ¬ initPruned h w mag lo p := by
  have key : initVisited h w mag lo ⊆ st.visited ∧
      ∀ p ∈ st.out, p ∈ cellsOf h w ∧ ¬ initPruned h w mag lo p := by
    refine cannyDriver_invariant (cellsOf h w) (9 * (h * w) + 1) mag hi
      (fun s => initVisited h w mag lo ⊆ s.visited ∧
        ∀ p ∈ s.out, p ∈ cellsOf h w ∧ ¬ initPruned h w mag lo p) ?_
      (scanList h w) _ st hst ?_
    · intro q s hqc hqv ⟨hI, hout⟩
      refine ⟨hI.trans (Finset.subset_insert _ _), ?_⟩
      intro p hp
      rcases Finset.mem_insert.mp hp with rfl | hp
      · refine ⟨hqc, fun hpr => ?_⟩
        exact hqv (hI (Finset.mem_filter.mpr ⟨hqc, hpr⟩))
      · exact hout p hp
    · exact ⟨le_refl _, by simp⟩
  exact key.2

theorem my_canny_core_sound (h w : ℕ) (mag : Pos → ℚ) (lo hi : ℚ)
    (st : TraceState) (hst : my_canny_core h w mag lo hi = some st) :
    ∀ p ∈ st.out, Reachable h w mag lo hi p := by
  refine cannyDriver_sound (cellsOf h w) (initVisited h w mag lo) (9 * (h * w) + 1)
    mag hi (Reachable h w mag lo hi) ?_ ?_ (scanList h w) _ st hst (le_refl _)
    (fun p hp => (mem_scanList h w p).mp hp) (by simp)
  · rintro a b ⟨s, hs1, hs2, hs3, hchain⟩ hnb hbc hbI
    have hnp : ¬ initPruned h w mag lo b := fun hpr =>
      hbI (Finset.mem_filter.mpr ⟨hbc, hpr⟩)
    exact ⟨s, hs1, hs2, hs3, hchain.tail ⟨hnb, hbc, hnp⟩⟩
  · intro p hpc hphi hpI
    have hnp : ¬ initPruned h w mag lo p := fun hpr =>
      hpI (Finset.mem_filter.mpr ⟨hpc, hpr⟩)
    exact ⟨p, hpc, hphi, hnp, Relation.ReflTransGen.refl⟩

theorem my_canny_core_complete (h w : ℕ) (mag : Pos → ℚ) (lo hi : ℚ)
    (st : TraceState) (hst : my_canny_core h w mag lo hi = some st) :
    ∀ p, Reachable h w mag lo hi p → p ∈ st.out := by
  have hvis : st.visited = initVisited h w mag lo ∪ st.out :=
    my_canny_core_visited h w mag lo hi st hst
  have hclosed : ∀ p ∈ st.out, ∀ r ∈ neighbors p, r ∈ cellsOf h w → r ∈ st.visited :=
    cannyDriver_closed (cellsOf h w) (9 * (h * w) + 1) mag hi (scanList h w) _ st hst
      (by simp)
  have hmarks : ∀ p ∈ scanList h w, hi ≤ mag p → p ∈ st.visited :=
    cannyDriver_marks (cellsOf h w) (9 * (h * w) + 1) mag hi (scanList h w) _ st hst
      (fun p hp => (mem_scanList h w p).mp hp)
  have hmem_of : ∀ q, q ∈ st.visited → q ∈ cellsOf h w →
      ¬ initPruned h w mag lo q → q ∈ st.out := by
    intro q hq hqc hqnp
    rw [hvis] at hq
    rcases Finset.mem_union.mp hq with hq | hq
    · exact absurd (Finset.mem_filter.mp hq).2 hqnp
    · exact hq
  rintro p ⟨s, hs1, hs2, hs3, hchain⟩
  induction hchain with
  | refl =>
    exact hmem_of s (hmarks s ((mem_scanList h w s).mpr hs1) hs2) hs1 hs3
  | tail hab hstep ih =>
    obtain ⟨hnb, hbc, hbnp⟩ := hstep
    exact hmem_of _ (hclosed _ ih _ hnb hbc) hbc hbnp

theorem my_canny_core_out_iff (h w : ℕ) (mag : Pos → ℚ) (lo hi : ℚ)
    (st : TraceState) (hst : my_canny_core h w mag lo hi = some st) (p : Pos) :
    p ∈ st.out ↔ Reachable h w mag lo hi p :=
  ⟨my_canny_core_sound h w mag lo hi st hst p,
    my_canny_core_complete h w mag lo hi st hst p⟩

theorem my_canny_state_total (h w : ℕ) (mag : Pos → ℚ) (tl th : ℚ) :
    ∃ st, my_canny_state h w mag tl th = some st := by
  unfold my_canny_state
  exact my_canny_core_total h w mag _ _

theorem my_canny_eq_of (h w : ℕ) (mag : Pos → ℚ) (tl th : ℚ) (st : TraceState)
    (hst : my_canny_state h w mag tl th = some st) (p : Pos) :
    my_canny h w mag tl th p = if p ∈ st.out then 255 else 0 := by
  unfold my_canny edgeMapOf
  rw [hst]

theorem reachable_in_grid (h w : ℕ) (mag : Pos → ℚ) (lo hi : ℚ) (p : Pos)
    (hr : Reachable h w mag lo hi p) :
    p ∈ cellsOf h w ∧ ¬ initPruned h w mag lo p := by
  obtain ⟨s, hs1, _, hs3, hchain⟩ := hr
  induction hchain with
  | refl => exact ⟨hs1, hs3⟩
  | tail hab hstep ih => exact ⟨hstep.2.1, hstep.2.2⟩

theorem reachable_mono_low (h w : ℕ) (mag : Pos → ℚ) (lo2 lo hi : ℚ)
    (hle : lo2 ≤ lo) (p : Pos) (hr : Reachable h w mag lo hi p) :
    Reachable h w mag lo2 hi p := by
  have hpr : ∀ q, initPruned h w mag lo2 q → initPruned h w mag lo q := by
    intro q hq
    rcases hq with hq | hq
    · exact Or.inl (lt_of_lt_of_le hq hle)
    · exact Or.inr hq
  obtain ⟨s, hs1, hs2, hs3, hchain⟩ := hr
  refine ⟨s, hs1, hs2, fun hc => hs3 (hpr s hc), ?_⟩
  refine Relation.ReflTransGen.mono ?_ hchain
  rintro a b ⟨h1, h2, h3⟩
  exact ⟨h1, h2, fun hc => h3 (hpr b hc)⟩

/-! ### Claim theorems for the EdgeTracer -/

/-- C1: for thresholds theta_low < theta_high, every pixel set in the edge
map returned by my_canny is reachable from some seed pixel (magnitude at
least theta_high_abs) via a chain of 8-connected pixels each with magnitude
at least theta_low_abs. -/
theorem canny_edge_pixels_reachable (h w : ℕ) (mag : Pos → ℚ) (tl th : ℚ)
    (hlt : tl < th) (p : Pos) (hp : my_canny h w mag tl th p ≠ 0) :
    ∃ s, th * maxMag h w mag ≤ mag s ∧ tl * maxMag h w mag ≤ mag s ∧
      Relation.ReflTransGen (lowStep mag (tl * maxMag h w mag)) s p := by
  obtain ⟨st, hst⟩ := my_canny_state_total h w mag tl th
  rw [my_canny_eq_of h w mag tl th st hst p] at hp
  have hpo : p ∈ st.out := by
    by_contra hn
    rw [if_neg hn] at hp
    exact hp rfl
  have hr : Reachable h w mag (tl * maxMag h w mag) (th * maxMag h w mag) p :=
    my_canny_core_sound h w mag _ _ st hst p hpo
  obtain ⟨s, hs1, hs2, hs3, hchain⟩ := hr
  have hlow : ∀ q, ¬ initPruned h w mag (tl * maxMag h w mag) q →
      tl * maxMag h w mag ≤ mag q := by
    intro q hq
    exact le_of_not_lt (fun hc => hq (Or.inl hc))
  refine ⟨s, hs2, hlow s hs3, ?_⟩
  refine Relation.ReflTransGen.mono ?_ hchain
  rintro a b ⟨h1, _, h3⟩
  exact ⟨h1, hlow b h3⟩

/-- C2 (amended): every interior pixel of magnitude at least theta_high_abs
is marked (value 255) in the edge map of my_canny; the original claim fails
for seeds on the border ring, which are pre-marked visited and never traced
(see the counterexample). -/
theorem canny_interior_seed_marked (h w : ℕ) (mag : Pos → ℚ) (tl th : ℚ)
    (hm : ∀ q, 0 ≤ mag q) (hlt : tl < th) (p : Pos)
    (hpc : p ∈ cellsOf h w) (hpb : ¬ isBorder h w p)
    (hhi : th * maxMag h w mag ≤ mag p) :
    my_canny h w mag tl th p = 255 := by
  obtain ⟨st, hst⟩ := my_canny_state_total h w mag tl th
  rw [my_canny_eq_of h w mag tl th st hst p]
  have hmax : 0 ≤ maxMag h w mag := maxMag_nonneg h w mag hm
  have hlo : tl * maxMag h w mag ≤ th * maxMag h w mag :=
    mul_le_mul_of_nonneg_right hlt.le hmax
  have hnp : ¬ initPruned h w mag (tl * maxMag h w mag) p := by
    rintro (hc | hc)
    · exact absurd (lt_of_le_of_lt (hlo.trans hhi) hc) (lt_irrefl _)
    · exact hpb hc
  have hpo : p ∈ st.out :=
    my_canny_core_complete h w mag _ _ st hst p
      ⟨p, hpc, hhi, hnp, Relation.ReflTransGen.refl⟩
  rw [if_pos hpo]

/-- C3 (amended): on a uniformly zero magnitude field both absolute
thresholds are zero, so every interior pixel is a seed and my_canny marks
exactly the interior (value 255), for every choice of the two thresholds;
no failure occurs.  The original all-zero-output claim fails (see the
counterexample). -/
theorem canny_zero_field (h w : ℕ) (mag : Pos → ℚ) (tl th : ℚ)
    (hz : ∀ q, mag q = 0) (p : Pos) :
    my_canny h w mag tl th p =
      if p ∈ cellsOf h w ∧ ¬ isBorder h w p then 255 else 0 := by
  have hmag : mag = fun _ => 0 := funext hz
  subst hmag
  have hmax : maxMag h w (fun _ => 0) = 0 := by
    unfold maxMag
    cases hsc : scanList h w with
    | nil => rfl
    | cons c cs =>
      have : ∀ (l : List Pos), l.foldl (fun x (_ : Pos) => max x ((0:ℚ))) 0 = 0 := by
        intro l
        induction l with
        | nil => rfl
        | cons a l ih => simpa using ih
      simpa using this cs
  obtain ⟨st, hst⟩ := my_canny_state_total h w (fun _ => 0) tl th
  rw [my_canny_eq_of h w (fun _ => 0) tl th st hst p]
  have hout : p ∈ st.out ↔ (p ∈ cellsOf h w ∧ ¬ isBorder h w p) := by
    unfold my_canny_state at hst
    rw [my_canny_core_out_iff h w (fun _ => 0) _ _ st hst p]
    constructor
    · intro hr
      obtain ⟨hc, hnp⟩ := reachable_in_grid h w _ _ _ p hr
      exact ⟨hc, fun hb => hnp (Or.inr hb)⟩
    · rintro ⟨hc, hb⟩
      refine ⟨p, hc, ?_, ?_, Relation.ReflTransGen.refl⟩
      · rw [hmax, mul_zero]
      · rintro (hlt | hbo)
        · rw [hmax, mul_zero] at hlt
          exact absurd hlt (lt_irrefl _)
        · exact hb hbo
  by_cases hc : p ∈ cellsOf h w ∧ ¬ isBorder h w p
  · rw [if_pos (hout.mpr hc), if_pos hc]
  · rw [if_neg (fun hmem => hc (hout.mp hmem)), if_neg hc]

/-- C4: the outermost 1-pixel ring of the edge map of my_canny is always 0:
border pixels are pre-marked visited and never marked as edges. -/
theorem canny_border_ring_zero (h w : ℕ) (mag : Pos → ℚ) (tl th : ℚ) (p : Pos)
    (hb : isBorder h w p) : my_canny h w mag tl th p = 0 := by
  obtain ⟨st, hst⟩ := my_canny_state_total h w mag tl th
  rw [my_canny_eq_of h w mag tl th st hst p]
  rw [if_neg]
  intro hmem
  unfold my_canny_state at hst
  have := my_canny_core_out_unpruned h w mag _ _ st hst p hmem
  exact this.2 (Or.inr hb)

/-- C5 (amended): the edge map of my_canny is binary with value 255 (not 1)
at every pixel marked edge and 0 at every other pixel, and the traversal
state it reads off always exists (no fuel exhaustion). -/
theorem canny_edge_map_binary (h w : ℕ) (mag : Pos → ℚ) (tl th : ℚ) :
    ∃ st, my_canny_state h w mag tl th = some st ∧
      ∀ p, (p ∈ st.out → my_canny h w mag tl th p = 255) ∧
        (p ∉ st.out → my_canny h w mag tl th p = 0) := by
  obtain ⟨st, hst⟩ := my_canny_state_total h w mag tl th
  refine ⟨st, hst, fun p => ⟨fun hp => ?_, fun hp => ?_⟩⟩
  · rw [my_canny_eq_of h w mag tl th st hst p, if_pos hp]
  · rw [my_canny_eq_of h w mag tl th st hst p, if_neg hp]

/-- C6: with theta_high fixed, lowering theta_low only grows the set of
marked pixels: the edge pixels at theta_low are a subset of those at any
theta_low2 at most theta_low, so the edge-pixel count never decreases. -/
theorem canny_lower_low_superset (h w : ℕ) (mag : Pos → ℚ) (tl2 tl th : ℚ)
    (hm : ∀ q, 0 ≤ mag q) (hle : tl2 ≤ tl) (hlt : tl < th) :
    ∃ st st2, my_canny_state h w mag tl th = some st ∧
      my_canny_state h w mag tl2 th = some st2 ∧
      st.out ⊆ st2.out ∧ st.out.card ≤ st2.out.card := by
  obtain ⟨st, hst⟩ := my_canny_state_total h w mag tl th
  obtain ⟨st2, hst2⟩ := my_canny_state_total h w mag tl2 th
  have hsub : st.out ⊆ st2.out := by
    intro p hp
    unfold my_canny_state at hst hst2
    have hr : Reachable h w mag (tl * maxMag h w mag) (th * maxMag h w mag) p :=
      my_canny_core_sound h w mag _ _ st hst p hp
    have hlo : tl2 * maxMag h w mag ≤ tl * maxMag h w mag :=
      mul_le_mul_of_nonneg_right hle (maxMag_nonneg h w mag hm)
    exact my_canny_core_complete h w mag _ _ st2 hst2 p
      (reachable_mono_low h w mag _ _ _ hlo p hr)
  exact ⟨st, st2, hst, hst2, hsub, Finset.card_le_card hsub⟩

/-- C10: the traversal of my_canny never runs out of fuel (it terminates),
visits every pixel at most once (the visit-event list has no duplicates) and
does at most one visit per grid pixel in total. -/
theorem canny_visits_once_and_terminates (h w : ℕ) (mag : Pos → ℚ) (tl th : ℚ) :
    ∃ st, my_canny_state h w mag tl th = some st ∧
      st.visits.Nodup ∧ st.visits.length ≤ h * w := by
  obtain ⟨st, hst⟩ := my_canny_state_total h w mag tl th
  have hvi : st.visits.Nodup ∧ (∀ v ∈ st.visits, v ∈ st.visited) ∧
      (∀ v ∈ st.visits, v ∈ cellsOf h w) := by
    unfold my_canny_state my_canny_core at hst
    exact cannyDriver_visits (cellsOf h w) (9 * (h * w) + 1) mag _ (scanList h w)
      _ st hst (List.nodup_nil) (by simp) (by simp)
  refine ⟨st, hst, hvi.1, ?_⟩
  have hsub : st.visits.toFinset ⊆ cellsOf h w := by
    intro v hv
    exact hvi.2.2 v (List.mem_toFinset.mp hv)
  calc st.visits.length = st.visits.toFinset.card :=
        (List.toFinset_card_of_nodup hvi.1).symm
    _ ≤ (cellsOf h w).card := Finset.card_le_card hsub
    _ = h * w := cellsOf_card h w

/-! ### Concrete magnitude fields used for witnesses and counterexamples -/

/-- A 3×4 field: a strong pixel at (1,1) and a weak 8-connected pixel at
(1,2). -/
def gridA : Pos → ℚ :=
  fun p => if p = ((1:ℤ),(1:ℤ)) then 10 else if p = ((1:ℤ),(2:ℤ)) then 4 else 0

/-- A 3×3 field whose only strong pixel sits on the border at (0,0). -/
def gridB : Pos → ℚ := fun p => if p = ((0:ℤ),(0:ℤ)) then 10 else 0

/-- A 3×3 field with a single strong interior pixel at (1,1). -/
def gridC : Pos → ℚ := fun p => if p = ((1:ℤ),(1:ℤ)) then 10 else 0

theorem gridC_nonneg : ∀ q, 0 ≤ gridC q := by
  intro q
  unfold gridC
  split <;> norm_num

theorem canny_edge_pixels_reachable_witness :
    my_canny 3 4 gridA (1/5) (1/2) ((1:ℤ),(2:ℤ)) ≠ 0 ∧
    ∃ s, (1/2 : ℚ) * maxMag 3 4 gridA ≤ gridA s ∧
      (1/5 : ℚ) * maxMag 3 4 gridA ≤ gridA s ∧
      Relation.ReflTransGen (lowStep gridA ((1/5 : ℚ) * maxMag 3 4 gridA)) s
        ((1:ℤ),(2:ℤ)) := by
  have hne : my_canny 3 4 gridA (1/5) (1/2) ((1:ℤ),(2:ℤ)) ≠ 0 := by
    have h1 : maxMag 3 4 gridA = 10 := by decide
    have h2 : (1:ℚ)/5 * 10 = 2 := by norm_num
    have h3 : (1:ℚ)/2 * 10 = 5 := by norm_num
    unfold my_canny my_canny_state
    rw [h1, h2, h3]
    decide
  exact ⟨hne, canny_edge_pixels_reachable 3 4 gridA (1/5) (1/2) (by norm_num)
    ((1:ℤ),(2:ℤ)) hne⟩

/-- Counterexample to C2 as stated: on gridB the pixel (0,0) has magnitude
above theta_high_abs, yet the edge map of my_canny is 0 there, because the
border ring is pre-marked visited. -/
theorem canny_border_seed_unmarked :
    ((1:ℚ)/5 < 1/2) ∧ ((1:ℚ)/2) * maxMag 3 3 gridB ≤ gridB ((0:ℤ),(0:ℤ)) ∧
      my_canny 3 3 gridB (1/5) (1/2) ((0:ℤ),(0:ℤ)) = 0 := by
  have h1 : maxMag 3 3 gridB = 10 := by decide
  refine ⟨by norm_num, ?_, ?_⟩
  · rw [h1]
    norm_num [gridB]
  · have h2 : (1:ℚ)/5 * 10 = 2 := by norm_num
    have h3 : (1:ℚ)/2 * 10 = 5 := by norm_num
    unfold my_canny my_canny_state
    rw [h1, h2, h3]
    decide

theorem canny_interior_seed_marked_witness :
    ((1:ℚ)/4 < 1/2) ∧ ((1:ℤ),(1:ℤ)) ∈ cellsOf 3 3 ∧
      ¬ isBorder 3 3 ((1:ℤ),(1:ℤ)) ∧
      ((1:ℚ)/2) * maxMag 3 3 gridC ≤ gridC ((1:ℤ),(1:ℤ)) ∧
      my_canny 3 3 gridC (1/4) (1/2) ((1:ℤ),(1:ℤ)) = 255 := by
  have hhi : ((1:ℚ)/2) * maxMag 3 3 gridC ≤ gridC ((1:ℤ),(1:ℤ)) := by
    have h1 : maxMag 3 3 gridC = 10 := by decide
    rw [h1]
    norm_num [gridC]
  exact ⟨by norm_num, by decide, by decide, hhi,
    canny_interior_seed_marked 3 3 gridC (1/4) (1/2) gridC_nonneg (by norm_num)
      ((1:ℤ),(1:ℤ)) (by decide) (by decide) hhi⟩

/-- Counterexample to C3 as stated: on a uniformly zero 3×3 magnitude field
my_canny marks the interior pixel (1,1) with 255, not 0. -/
theorem canny_zero_field_center_marked :
    my_canny 3 3 (fun _ => (0:ℚ)) (1/10) (3/10) ((1:ℤ),(1:ℤ)) = 255 := by
  have h1 : maxMag 3 3 (fun _ => (0:ℚ)) = 0 := by decide
  have h2 : (1:ℚ)/10 * 0 = 0 := by norm_num
  have h3 : (3:ℚ)/10 * 0 = 0 := by norm_num
  unfold my_canny my_canny_state
  rw [h1, h2, h3]
  decide

theorem canny_zero_field_witness :
    my_canny 3 3 (fun _ => (0:ℚ)) (1/10) (3/10) ((0:ℤ),(1:ℤ)) =
      if ((0:ℤ),(1:ℤ)) ∈ cellsOf 3 3 ∧ ¬ isBorder 3 3 ((0:ℤ),(1:ℤ)) then 255
      else 0 :=
  canny_zero_field 3 3 (fun _ => 0) (1/10) (3/10) (fun _ => rfl) ((0:ℤ),(1:ℤ))

theorem canny_border_ring_zero_witness :
    isBorder 3 3 ((0:ℤ),(2:ℤ)) ∧
      my_canny 3 3 gridC (1/4) (1/2) ((0:ℤ),(2:ℤ)) = 0 :=
  ⟨by decide, canny_border_ring_zero 3 3 gridC (1/4) (1/2) ((0:ℤ),(2:ℤ)) (by decide)⟩

/-- Counterexample to C5 as stated: a pixel marked edge by my_canny carries
the value 255, not 1. -/
theorem canny_edge_value_not_one :
    my_canny 3 3 gridC (1/10) (1/2) ((1:ℤ),(1:ℤ)) = 255 ∧ ((255:ℚ) ≠ 1) := by
  refine ⟨?_, by norm_num⟩
  have h1 : maxMag 3 3 gridC = 10 := by decide
  have h2 : (1:ℚ)/10 * 10 = 1 := by norm_num
  have h3 : (1:ℚ)/2 * 10 = 5 := by norm_num
  unfold my_canny my_canny_state
  rw [h1, h2, h3]
  decide

theorem canny_lower_low_superset_witness :
    ((1:ℚ)/10 ≤ 1/4) ∧ ((1:ℚ)/4 < 1/2) ∧
      ∃ st st2, my_canny_state 3 3 gridC (1/4) (1/2) = some st ∧
        my_canny_state 3 3 gridC (1/10) (1/2) = some st2 ∧
        st.out ⊆ st2.out ∧ st.out.card ≤ st2.out.card :=
  ⟨by norm_num, by norm_num,
    canny_lower_low_superset 3 3 gridC (1/10) (1/4) (1/2) gridC_nonneg
      (by norm_num) (by norm_num)⟩

/-! ### Pointwise evaluation of grid-filling loops -/

/-- A loop that writes a value depending only on the position fills exactly
the scanned positions and leaves the rest of the grid untouched. -/
theorem foldl_update_eval {β : Type} (l : List Pos) (v : Pos → β) :
    ∀ (g : Pos → β) (q : Pos),
      (l.foldl (fun g2 p => Function.update g2 p (v p)) g) q =
        if q ∈ l then v q else g q := by
  induction l with
  | nil => simp
  | cons p l ih =>
    intro g q
    rw [List.foldl_cons, ih]
    by_cases hql : q ∈ l
    · simp [hql, List.mem_cons]
    · by_cases hqp : q = p
      · subst hqp
        simp [hql, Function.update_apply]
      · simp [hql, hqp, Function.update_apply, List.mem_cons]

theorem nms_for_canny_eval (h w : ℕ) (mag : Pos → ℚ) (dir : Pos → Fin 9) (q : Pos) :
    nms_for_canny h w mag dir q =
      if q ∈ interiorScan h w then
        (if nmsKeep mag (octOffset (dir q)) q then mag q else 0)
      else 0 := by
  unfold nms_for_canny
  exact foldl_update_eval (interiorScan h w)
    (fun p => if nmsKeep mag (octOffset (dir p)) p then mag p else 0) (fun _ => 0) q

theorem octOffset_small : ∀ o : Fin 9,
    -1 ≤ (octOffset o).1 ∧ (octOffset o).1 ≤ 1 ∧
      -1 ≤ (octOffset o).2 ∧ (octOffset o).2 ≤ 1 := by
  decide

/-- C7: nms_for_canny zeroes the outermost ring; each interior pixel keeps
its magnitude exactly when it is at least both neighbors along the snapped
direction and its opposite (ties kept) and is zeroed otherwise, and both
those neighbor positions are inside the grid. -/
theorem nms_for_canny_spec (h w : ℕ) (mag : Pos → ℚ) (dir : Pos → Fin 9) (p : Pos)
    (hp : p ∈ cellsOf h w) :
    (isBorder h w p → nms_for_canny h w mag dir p = 0) ∧
    (¬ isBorder h w p →
      ((p.1 + (octOffset (dir p)).1, p.2 + (octOffset (dir p)).2) ∈ cellsOf h w ∧
       (p.1 - (octOffset (dir p)).1, p.2 - (octOffset (dir p)).2) ∈ cellsOf h w ∧
       (nmsKeep mag (octOffset (dir p)) p → nms_for_canny h w mag dir p = mag p) ∧
       (¬ nmsKeep mag (octOffset (dir p)) p → nms_for_canny h w mag dir p = 0))) := by
  constructor
  · intro hb
    rw [nms_for_canny_eval]
    rw [if_neg]
    intro hmem
    exact ((interiorScan_iff h w p).mp hmem).2 hb
  · intro hb
    have hint : p ∈ interiorScan h w := (interiorScan_iff h w p).mpr ⟨hp, hb⟩
    have hbounds := octOffset_small (dir p)
    have hpos := (mem_interiorScan h w p).mp hint
    refine ⟨?_, ?_, ?_, ?_⟩
    · rw [mem_cellsOf]
      constructor
      · omega
      · exact ⟨by omega, by omega, by omega⟩
    · rw [mem_cellsOf]
      constructor
      · omega
      · exact ⟨by omega, by omega, by omega⟩
    · intro hk
      rw [nms_for_canny_eval, if_pos hint, if_pos hk]
    · intro hk
      rw [nms_for_canny_eval, if_pos hint, if_neg hk]

/-- A 3×3 magnitude field used for the nms_for_canny witness. -/
def gridN : Pos → ℚ := fun p => if p = ((1:ℤ),(1:ℤ)) then 7 else 1

theorem nms_for_canny_spec_witness :
    (((1:ℤ),(1:ℤ)) ∈ cellsOf 3 3) ∧
    ((isBorder 3 3 ((1:ℤ),(1:ℤ)) →
        nms_for_canny 3 3 gridN (fun _ => 0) ((1:ℤ),(1:ℤ)) = 0) ∧
     (¬ isBorder 3 3 ((1:ℤ),(1:ℤ)) →
       ((((1:ℤ),(1:ℤ)).1 + (octOffset ((fun (_ : Pos) => (0 : Fin 9)) ((1:ℤ),(1:ℤ)))).1,
         (((1:ℤ),(1:ℤ)).2 + (octOffset ((fun (_ : Pos) => (0 : Fin 9)) ((1:ℤ),(1:ℤ)))).2))
           ∈ cellsOf 3 3 ∧
        (((1:ℤ),(1:ℤ)).1 - (octOffset ((fun (_ : Pos) => (0 : Fin 9)) ((1:ℤ),(1:ℤ)))).1,
         ((1:ℤ),(1:ℤ)).2 - (octOffset ((fun (_ : Pos) => (0 : Fin 9)) ((1:ℤ),(1:ℤ)))).2)
           ∈ cellsOf 3 3 ∧
        (nmsKeep gridN (octOffset ((fun (_ : Pos) => (0 : Fin 9)) ((1:ℤ),(1:ℤ))))
            ((1:ℤ),(1:ℤ)) →
          nms_for_canny 3 3 gridN (fun _ => 0) ((1:ℤ),(1:ℤ)) = gridN ((1:ℤ),(1:ℤ))) ∧
        (¬ nmsKeep gridN (octOffset ((fun (_ : Pos) => (0 : Fin 9)) ((1:ℤ),(1:ℤ))))
            ((1:ℤ),(1:ℤ)) →
          nms_for_canny 3 3 gridN (fun _ => 0) ((1:ℤ),(1:ℤ)) = 0)))) :=
  ⟨by decide, nms_for_canny_spec 3 3 gridN (fun _ => 0) ((1:ℤ),(1:ℤ)) (by decide)⟩

/-! ### Vote counting for the Hough accumulator -/

theorem vote_inner_sum {nR nT : ℕ} (idx : Fin nT → Fin nR) (ts : List (Fin nT)) :
    ∀ acc : Fin nR × Fin nT → ℤ,
      (∑ c, (ts.foldl (fun a t => Function.update a (idx t, t) (a (idx t, t) + 1)) acc) c)
        = (∑ c, acc c) + ts.length := by
  induction ts with
  | nil => simp
  | cons t ts ih =>
    intro acc
    rw [List.foldl_cons, ih]
    have hupd : (∑ c, (Function.update acc (idx t, t) (acc (idx t, t) + 1)) c)
        = (∑ c, acc c) + 1 := by
      rw [Finset.sum_update_of_mem (Finset.mem_univ _)]
      rw [Finset.sum_eq_sum_diff_singleton_add (Finset.mem_univ (idx t, t)) acc]
      ring
    rw [hupd, List.length_cons]
    push_cast
    ring

theorem vote_inner_nonneg {nR nT : ℕ} (idx : Fin nT → Fin nR) (ts : List (Fin nT)) :
    ∀ acc : Fin nR × Fin nT → ℤ, (∀ c, 0 ≤ acc c) →
      ∀ c, 0 ≤ (ts.foldl (fun a t => Function.update a (idx t, t) (a (idx t, t) + 1)) acc) c := by
  induction ts with
  | nil => exact fun acc hacc => hacc
  | cons t ts ih =>
    intro acc hacc
    rw [List.foldl_cons]
    refine ih _ ?_
    intro c
    rw [Function.update_apply]
    split
    · have := hacc (idx t, t)
      omega
    · exact hacc c

theorem vote_outer_sum {nR nT : ℕ} (rhoIdx : Pos → Fin nT → Fin nR) (ps : List Pos) :
    ∀ acc : Fin nR × Fin nT → ℤ,
      (∑ c, (ps.foldl
        (fun a p => (List.finRange nT).foldl
          (fun a2 t => Function.update a2 (rhoIdx p t, t) (a2 (rhoIdx p t, t) + 1)) a)
        acc) c)
        = (∑ c, acc c) + ps.length * nT := by
  induction ps with
  | nil => simp
  | cons p ps ih =>
    intro acc
    rw [List.foldl_cons, ih, vote_inner_sum (rhoIdx p) (List.finRange nT) acc]
    rw [List.length_finRange, List.length_cons]
    push_cast
    ring

theorem vote_outer_nonneg {nR nT : ℕ} (rhoIdx : Pos → Fin nT → Fin nR) (ps : List Pos) :
    ∀ acc : Fin nR × Fin nT → ℤ, (∀ c, 0 ≤ acc c) →
      ∀ c, 0 ≤ (ps.foldl
        (fun a p => (List.finRange nT).foldl
          (fun a2 t => Function.update a2 (rhoIdx p t, t) (a2 (rhoIdx p t, t) + 1)) a)
        acc) c := by
  induction ps with
  | nil => exact fun acc hacc => hacc
  | cons p ps ih =>
    intro acc hacc
    rw [List.foldl_cons]
    exact ih _ (vote_inner_nonneg (rhoIdx p) (List.finRange nT) acc hacc)

/-- C8: the full-voting Hough accumulator holds only non-negative integers
and its entries sum to exactly (number of edge pixels) * (number of theta
bins), for every quantization map. -/
theorem hough_transform_votes (h w nR nT : ℕ) (edge : Pos → ℚ)
    (rhoIdx : Pos → Fin nT → Fin nR) :
    (∀ c, 0 ≤ hough_transform h w nR nT edge rhoIdx c) ∧
      (∑ c, hough_transform h w nR nT edge rhoIdx c)
        = ((edgePixels h w edge).length : ℤ) * (nT : ℤ) := by
  constructor
  · intro c
    unfold hough_transform
    exact vote_outer_nonneg rhoIdx (edgePixels h w edge) (fun _ => 0)
      (fun _ => le_refl 0) c
  · unfold hough_transform
    rw [vote_outer_sum rhoIdx (edgePixels h w edge) (fun _ => 0)]
    simp

/-! ### Peak extraction -/

theorem nms2d_eval (h w : ℕ) (g : Pos → ℤ) (q : Pos) :
    nms2d h w g q =
      if q ∈ interiorScan h w then
        (if ∀ r ∈ neighbors q, g r < g q then g q else 0)
      else 0 := by
  unfold nms2d
  exact foldl_update_eval (interiorScan h w)
    (fun p => if ∀ r ∈ neighbors p, g r < g p then g p else 0) (fun _ => 0) q

/-- C9: for a non-negative threshold, find_hough_peaks reports exactly the
cells that have all 8 direct neighbors (interior cells), exceed all of them
strictly, and have a vote count above the threshold; in particular no
reported peak has a neighbor with a strictly greater value. -/
theorem find_hough_peaks_spec (h w : ℕ) (g : Pos → ℤ) (thr : ℤ) (hthr : 0 ≤ thr)
    (p : Pos) :
    (p ∈ find_hough_peaks h w g thr ↔
      (p ∈ cellsOf h w ∧ ¬ isBorder h w p ∧ (∀ q ∈ neighbors p, g q < g p) ∧
        thr < g p)) ∧
    (p ∈ find_hough_peaks h w g thr → ∀ q ∈ neighbors p, ¬ (g p < g q)) := by
  have hiff : p ∈ find_hough_peaks h w g thr ↔
      (p ∈ cellsOf h w ∧ ¬ isBorder h w p ∧ (∀ q ∈ neighbors p, g q < g p) ∧
        thr < g p) := by
    unfold find_hough_peaks
    rw [List.mem_filter]
    rw [decide_eq_true_eq]
    rw [nms2d_eval, mem_rowMajor]
    by_cases hint : p ∈ interiorScan h w
    · rw [if_pos hint]
      obtain ⟨hc, hb⟩ := (interiorScan_iff h w p).mp hint
      by_cases hmax : ∀ r ∈ neighbors p, g r < g p
      · rw [if_pos hmax]
        constructor
        · rintro ⟨_, hgt⟩
          exact ⟨hc, hb, hmax, hgt⟩
        · rintro ⟨_, _, _, hgt⟩
          exact ⟨hc, hgt⟩
      · rw [if_neg hmax]
        constructor
        · rintro ⟨_, hgt⟩
          exact absurd hgt (not_lt.mpr hthr)
        · rintro ⟨_, _, hm, _⟩
          exact absurd hm hmax
    · rw [if_neg hint]
      constructor
      · rintro ⟨_, hgt⟩
        exact absurd hgt (not_lt.mpr hthr)
      · rintro ⟨hc, hb, _, _⟩
        exact absurd ((interiorScan_iff h w p).mpr ⟨hc, hb⟩) hint
  refine ⟨hiff, ?_⟩
  intro hp q hq
  have hmax := (hiff.mp hp).2.2.1
  exact not_lt.mpr (hmax q hq).le

/-- A 3×3 votes array used for the find_hough_peaks witness. -/
def gridV : Pos → ℤ := fun p => if p = ((1:ℤ),(1:ℤ)) then 5 else 0

theorem find_hough_peaks_spec_witness :
    ((0:ℤ) ≤ 2) ∧
    ((((1:ℤ),(1:ℤ)) ∈ find_hough_peaks 3 3 gridV 2 ↔
      (((1:ℤ),(1:ℤ)) ∈ cellsOf 3 3 ∧ ¬ isBorder 3 3 ((1:ℤ),(1:ℤ)) ∧
        (∀ q ∈ neighbors ((1:ℤ),(1:ℤ)), gridV q < gridV ((1:ℤ),(1:ℤ))) ∧
        (2:ℤ) < gridV ((1:ℤ),(1:ℤ)))) ∧
     (((1:ℤ),(1:ℤ)) ∈ find_hough_peaks 3 3 gridV 2 →
        ∀ q ∈ neighbors ((1:ℤ),(1:ℤ)), ¬ (gridV ((1:ℤ),(1:ℤ)) < gridV q))) :=
  ⟨by decide, find_hough_peaks_spec 3 3 gridV 2 (by decide) ((1:ℤ),(1:ℤ))⟩

end CV1
